import Mathlib

/-!
Shallow embedding of the MIPS64 floating-point coprocessor (COP1) engine
from `src/emu/cpu/mips64/src/fpu.rs`, together with theorems settling the
frozen claims about it.

Machine integers (`u64`, opcode words) are modelled as `ℕ` with explicit
`% 2 ^ w` where wrap-around matters.  IEEE-754 float values are modelled
exactly: a bit pattern decodes to either NaN, a signed infinity, or a
finite value represented by the rational it denotes; bit-level operations
(moves, register storage) act on the raw patterns.  The numeric results of
ADD/SUB/MUL/DIV/SQRT/ABS/NEG are irrelevant to every claim and are kept as
abstract bit-level functions, universally quantified in the theorems.
Rust `panic!` is modelled by `Option`/a `fatal` result; the tracer's
recoverable `break_here` by a distinguished `brk` result.
-/

namespace R64

/-- IEEE-754 value denoted by a bit pattern: not-a-number, an infinity with a
sign (`true` = negative), or a finite value given exactly as a rational. -/
inductive FVal where
  | nan : FVal
  | inf : Bool → FVal
  | fin : ℚ → FVal
deriving DecidableEq

/-- Decode an IEEE-754 binary interchange format with `eb` exponent bits and
`mb` mantissa bits from the low `1 + eb + mb` bits of `b`. -/
def decodeIEEE (eb mb : ℕ) (b : ℕ) : FVal :=
  let man := b % 2 ^ mb
  let expo := b / 2 ^ mb % 2 ^ eb
  let sgn := b / 2 ^ (mb + eb) % 2 = 1
  let bias : ℤ := 2 ^ (eb - 1) - 1
  if expo = 2 ^ eb - 1 then
    if man = 0 then .inf sgn else .nan
  else
    let mag : ℚ :=
      if expo = 0 then (man : ℚ) * (2 : ℚ) ^ (1 - bias - mb)
      else ((2 ^ mb + man : ℕ) : ℚ) * (2 : ℚ) ^ ((expo : ℤ) - bias - mb)
    .fin (if sgn then -mag else mag)

/-- Rust `f32::is_nan` / `f64::is_nan` on the decoded value. -/
def FVal.is_nan : FVal → Bool
  | .nan => true
  | _ => false

/-- Rust (IEEE-754) `<` on float values: NaN compares false with everything;
`-0.0` and `0.0` both decode to `fin 0` and are not less than each other. -/
def FVal.flt : FVal → FVal → Bool
  | .inf s, .inf t => s && !t
  | .inf s, .fin _ => s
  | .fin _, .inf t => !t
  | .fin p, .fin q => decide (p < q)
  | _, _ => false

/-- Rust (IEEE-754) `==` on float values: NaN is equal to nothing, `-0.0 ==
0.0` holds because both decode to `fin 0`. -/
def FVal.feq : FVal → FVal → Bool
  | .inf s, .inf t => s == t
  | .fin p, .fin q => decide (p = q)
  | _, _ => false

/-- The two COP1 float widths: single precision (top-level format 16, `f32`)
and double precision (format 17, `f64`). -/
inductive FW where
  | single : FW
  | double : FW
deriving DecidableEq

/-- Bit width of the float format. -/
def FW.bits : FW → ℕ
  | .single => 32
  | .double => 64

/-- `FloatRawConvert::from_u64bits` followed by decoding: `f32` reinterprets
the low 32 bits (`v as u32`), `f64` all 64. -/
def FW.fval (w : FW) (v : ℕ) : FVal :=
  match w with
  | .single => decodeIEEE 8 23 (v % 2 ^ 32)
  | .double => decodeIEEE 11 52 (v % 2 ^ 64)

/-- Rust `f32::round` / `f64::round`: nearest integer, ties away from zero. -/
def fround (q : ℚ) : ℚ := if 0 ≤ q then (⌊q + 1 / 2⌋ : ℤ) else (⌈q - 1 / 2⌉ : ℤ)

/-- Rust `trunc`: round toward zero. -/
def ftrunc (q : ℚ) : ℚ := if 0 ≤ q then (⌊q⌋ : ℤ) else (⌈q⌉ : ℤ)

/-- Rust `ceil`. -/
def fceil (q : ℚ) : ℚ := (⌈q⌉ : ℤ)

/-- Rust `floor`. -/
def ffloor (q : ℚ) : ℚ := (⌊q⌋ : ℤ)

/-- `FloatRawConvert::bankers_round` (identical for the `f32` and the `f64`
instance): `let y = self.round(); if (self - y).abs() == 0.5 { (self * 0.5)
.round() * 2.0 } else { y }`.  On the dyadic rationals denoted by floats all
the intermediate operations are exact. -/
def bankers_round (q : ℚ) : ℚ :=
  let y := fround q
  if |q - y| = 1 / 2 then fround (q * (1 / 2)) * 2 else y

/-- Apply a rounding step to a float value: `round`/`trunc`/`ceil`/`floor`
map NaN to NaN and each infinity to itself. -/
def FVal.rnd (f : ℚ → ℚ) : FVal → FVal
  | .fin q => .fin (f q)
  | v => v

/-- Rust float-as-integer cast (`v as i64` / `v as i32` on an in-range
value): truncation toward zero. -/
def qint (q : ℚ) : ℤ := if 0 ≤ q then ⌊q⌋ else ⌈q⌉

/-- num-traits `ToPrimitive::to_i64` for `f32` and `f64`: since the float is
no wider than `i64`, the bound is `self >= i64::MIN as Self && self <
-(i64::MIN as Self)`, i.e. `-2^63 ≤ q < 2^63`; NaN and infinities give
`None`. -/
def FVal.to_i64 : FVal → Option ℤ
  | .fin q => if -(2 ^ 63) ≤ q ∧ q < 2 ^ 63 then some (qint q) else none
  | _ => none

/-- num-traits `ToPrimitive::to_i32`: for `f32` (same size as `i32`) the
bound is `-2^31 ≤ q < 2^31`; for `f64` (wider than `i32`) it is the exact
exclusive range `i32::MIN - 1 < q < i32::MAX + 1`. -/
def FVal.to_i32 (w : FW) : FVal → Option ℤ
  | .fin q =>
    match w with
    | .single => if -(2 ^ 31) ≤ q ∧ q < 2 ^ 31 then some (qint q) else none
    | .double => if -(2 ^ 31) - 1 < q ∧ q < 2 ^ 31 then some (qint q) else none
  | _ => none

/-- The FPU state (struct `Fpu`): 32 raw 64-bit registers, the compact
condition-code register `fccr`, the control/status register `fcsr`, and the
reserved implementation-id/exception/enable registers (never written). -/
structure Fpu where
  regs : Fin 32 → ℕ
  _fir : ℕ
  fccr : ℕ
  _fexr : ℕ
  _fenr : ℕ
  fcsr : ℕ

/-- `Fpu::new`: all state zeroed. -/
def Fpu.init : Fpu := ⟨fun _ => 0, 0, 0, 0, 0, 0⟩

/-- The mirrored FCSR bit position of condition code `cc`, exactly as
`Fpu::set_cc` computes it: `let mut cc2 = cc + 23; if cc > 0 { cc2 += 1 }`. -/
def ccPos (cc : ℕ) : ℕ := if cc > 0 then cc + 23 + 1 else cc + 23

/-- `Fpu::set_cc`.  `none` models the `panic!("invalid cc code")`; the Rust
guard is `cc > 8`.  `!(1u64 << cc)` is the 64-bit complement
`(2^64 - 1) ^^^ (1 <<< cc)`. -/
def Fpu.set_cc (fpu : Fpu) (cc : ℕ) (val : Bool) : Option Fpu :=
  if cc > 8 then none
  else
    some { fpu with
      fccr := fpu.fccr &&& ((2 ^ 64 - 1) ^^^ (1 <<< cc)) ||| (val.toNat <<< cc)
      fcsr := fpu.fcsr &&& ((2 ^ 64 - 1) ^^^ (1 <<< ccPos cc)) |||
        (val.toNat <<< ccPos cc) }

/-- `Fpu::get_cc`: reads the compact register; same `cc > 8` guard. -/
def Fpu.get_cc (fpu : Fpu) (cc : ℕ) : Option Bool :=
  if cc > 8 then none else some (decide ((fpu.fccr &&& (1 <<< cc)) ≠ 0))

/-- Modelled from the spec: the CPU context consumed from outside (spec §6;
its source, `cpu.rs`, is not part of the given core) — integer general
registers indexed 0–31, the current program counter, and a
`branch(condition, target, likely)` operation that performs the actual
control transfer.  The model records the `branch` call the FPU hands over. -/
structure CpuContext where
  regs : Fin 32 → ℕ
  pc : ℕ
  branchCall : Option (Bool × ℕ × Bool)

/-- Modelled from the spec: `CpuContext::branch` delegates control transfer
and delay-slot bookkeeping; here it records its `(cond, tgt, likely)`
arguments. -/
def CpuContext.branch (cpu : CpuContext) (cond : Bool) (tgt : ℕ) (likely : Bool) :
    CpuContext :=
  { cpu with branchCall := some (cond, tgt, likely) }

/-- Modelled from the spec: `Numerics::sx64` (from `emu::int`, not part of
the given core) sign-extends the low 16 bits of its argument into a 64-bit
unsigned word (spec §4.5: "sign-extended 16-bit immediate"). -/
def sx64 (x : ℕ) : ℕ :=
  if x % 2 ^ 16 < 2 ^ 15 then x % 2 ^ 16 else 2 ^ 64 - 2 ^ 16 + x % 2 ^ 16

/-- Width-specific IEEE arithmetic at the bit level: the compositions
`to_u64bits (fs ⊕ ft)` used by ADD/SUB/MUL/DIV and `to_u64bits (f fs)` used
by SQRT/ABS/NEG.  The claims do not depend on the numeric results of these
operations, so they are abstract parameters, universally quantified in every
theorem; the dispatcher masks their results to the float width exactly as
`to_u64bits` does. -/
structure FArith where
  add : ℕ → ℕ → ℕ
  sub : ℕ → ℕ → ℕ
  mul : ℕ → ℕ → ℕ
  div : ℕ → ℕ → ℕ
  sqrt : ℕ → ℕ
  abs : ℕ → ℕ
  neg : ℕ → ℕ

/-- `Fop::func`: `opcode & 0x3f`. -/
def Fop.func (o : ℕ) : ℕ := o % 2 ^ 6

/-- `Fop::cc`: `(opcode >> 8) & 7`. -/
def Fop.cc (o : ℕ) : ℕ := o / 2 ^ 8 % 2 ^ 3

/-- `Fop::rs`: `(opcode >> 11) & 0x1f`. -/
def Fop.rs (o : ℕ) : Fin 32 := ⟨o / 2 ^ 11 % 2 ^ 5, by omega⟩

/-- `Fop::rt`: `(opcode >> 16) & 0x1f`. -/
def Fop.rt (o : ℕ) : Fin 32 := ⟨o / 2 ^ 16 % 2 ^ 5, by omega⟩

/-- `Fop::rd`: `(opcode >> 6) & 0x1f`. -/
def Fop.rd (o : ℕ) : Fin 32 := ⟨o / 2 ^ 6 % 2 ^ 5, by omega⟩

/-- The `approx!` macro: read the source at width `w`, apply the rounding
step, narrow with the num-traits conversion; on success write the full
64-bit two's-complement pattern (`v as u64`) to the destination, otherwise
`panic!("approx out of range")`. -/
def approxStep (w : FW) (fpu : Fpu) (cpu : CpuContext) (opcode : ℕ)
    (rnd : ℚ → ℚ) (toInt : FVal → Option ℤ) : Option (Fpu × CpuContext) :=
  match toInt ((w.fval (fpu.regs (Fop.rs opcode) % 2 ^ w.bits)).rnd rnd) with
  | some v =>
    some ({ fpu with
            regs := Function.update fpu.regs (Fop.rd opcode) ((v % 2 ^ 64).toNat) },
          cpu)
  | none => none

/-- The `cond!` macro: compare the two source registers at width `w` under
the 4-bit predicate in `func`; `panic!("signal FPU NaN in comparison")` when
unordered and bit 3 is set, otherwise write the predicate's boolean to the
condition code selected by the opcode via `set_cc`. -/
def condStep (w : FW) (fpu : Fpu) (cpu : CpuContext) (opcode : ℕ) (func : ℕ) :
    Option (Fpu × CpuContext) :=
  let fs := w.fval (fpu.regs (Fop.rs opcode) % 2 ^ w.bits)
  let ft := w.fval (fpu.regs (Fop.rt opcode) % 2 ^ w.bits)
  let nan := fs.is_nan || ft.is_nan
  let less := if !nan then fs.flt ft else false
  let equal := if !nan then fs.feq ft else false
  if nan && decide ((func &&& 8) ≠ 0) then none
  else
    let c := (less && decide ((func &&& 4) ≠ 0)) ||
             (equal && decide ((func &&& 2) ≠ 0)) ||
             (nan && decide ((func &&& 1) ≠ 0))
    (fpu.set_cc (Fop.cc opcode) c).map (fun f => (f, cpu))

/-- `Fpu::fop`, the width-parameterized operation dispatcher.  `none` models
a Rust `panic!` (a FATAL condition).  `fs`/`ft` decode the low `W` bits of
the source registers (`from_u64bits`); `setfd` stores `to_u64bits` of a
width-`W` float, hence a value `< 2 ^ W`. -/
def Fpu.fop (w : FW) (ar : FArith) (fpu : Fpu) (cpu : CpuContext) (opcode : ℕ) :
    Option (Fpu × CpuContext) :=
  let fsb := fpu.regs (Fop.rs opcode) % 2 ^ w.bits
  let ftb := fpu.regs (Fop.rt opcode) % 2 ^ w.bits
  let setfd : ℕ → Option (Fpu × CpuContext) := fun v =>
    some ({ fpu with regs := Function.update fpu.regs (Fop.rd opcode) (v % 2 ^ w.bits) },
          cpu)
  match Fop.func opcode with
  | 0x00 => setfd (ar.add fsb ftb)                             -- ADD.fmt
  | 0x01 => setfd (ar.sub fsb ftb)                             -- SUB.fmt
  | 0x02 => setfd (ar.mul fsb ftb)                             -- MUL.fmt
  | 0x03 => setfd (ar.div fsb ftb)                             -- DIV.fmt
  | 0x04 => setfd (ar.sqrt fsb)                                -- SQRT.fmt
  | 0x05 => setfd (ar.abs fsb)                                 -- ABS.fmt
  | 0x06 => setfd fsb                                          -- MOV.fmt
  | 0x07 => setfd (ar.neg fsb)                                 -- NEG.fmt
  | 0x08 => approxStep w fpu cpu opcode bankers_round FVal.to_i64   -- ROUND.L.fmt
  | 0x09 => approxStep w fpu cpu opcode ftrunc FVal.to_i64          -- TRUNC.L.fmt
  | 0x0A => approxStep w fpu cpu opcode fceil FVal.to_i64           -- CEIL.L.fmt
  | 0x0B => approxStep w fpu cpu opcode ffloor FVal.to_i64          -- FLOOR.L.fmt
  | 0x0C => approxStep w fpu cpu opcode bankers_round (FVal.to_i32 w) -- ROUND.W.fmt
  | 0x0D => approxStep w fpu cpu opcode ftrunc (FVal.to_i32 w)      -- TRUNC.W.fmt
  | 0x0E => approxStep w fpu cpu opcode fceil (FVal.to_i32 w)       -- CEIL.W.fmt
  | 0x0F => approxStep w fpu cpu opcode ffloor (FVal.to_i32 w)      -- FLOOR.W.fmt
  | 0x30 => condStep w fpu cpu opcode 0x30
  | 0x31 => condStep w fpu cpu opcode 0x31
  | 0x32 => condStep w fpu cpu opcode 0x32
  | 0x33 => condStep w fpu cpu opcode 0x33
  | 0x34 => condStep w fpu cpu opcode 0x34
  | 0x35 => condStep w fpu cpu opcode 0x35
  | 0x36 => condStep w fpu cpu opcode 0x36
  | 0x37 => condStep w fpu cpu opcode 0x37
  | 0x38 => condStep w fpu cpu opcode 0x38
  | 0x39 => condStep w fpu cpu opcode 0x39
  | 0x3A => condStep w fpu cpu opcode 0x3A
  | 0x3B => condStep w fpu cpu opcode 0x3B
  | 0x3C => condStep w fpu cpu opcode 0x3C
  | 0x3D => condStep w fpu cpu opcode 0x3D
  | 0x3E => condStep w fpu cpu opcode 0x3E
  | 0x3F => condStep w fpu cpu opcode 0x3F
  | _ => none                                     -- panic: unimplemented COP1 opcode

/-- Result of the coprocessor `op` entry point: a normal return with the new
FPU and CPU states, the tracer's recoverable `break_here` outcome (state
carried unchanged), or a FATAL `panic!`. -/
inductive CopResult where
  | ok : Fpu → CpuContext → CopResult
  | brk : Fpu → CpuContext → String → CopResult
  | fatal : CopResult

/-- FPU component of a non-fatal result. -/
def CopResult.fpu? : CopResult → Option Fpu
  | .ok f _ => some f
  | .brk f _ _ => some f
  | .fatal => none

/-- CPU component of a non-fatal result. -/
def CopResult.cpu? : CopResult → Option CpuContext
  | .ok _ c => some c
  | .brk _ c _ => some c
  | .fatal => none

/-- Whether the entry point returned normally. -/
def CopResult.isOk : CopResult → Bool
  | .ok _ _ => true
  | _ => false

/-- Whether the entry point reported a recoverable condition via the tracer. -/
def CopResult.isBrk : CopResult → Bool
  | .brk _ _ _ => true
  | _ => false

/-- FPU data register `i` after a non-fatal result. -/
def CopResult.regVal (r : CopResult) (i : Fin 32) : Option ℕ :=
  r.fpu?.map fun f => f.regs i

/-- CPU general register `i` after a non-fatal result. -/
def CopResult.cpuReg (r : CopResult) (i : Fin 32) : Option ℕ :=
  r.cpu?.map fun c => c.regs i

/-- The branch delegation recorded by the CPU context after a non-fatal
result. -/
def CopResult.branched (r : CopResult) : Option (Option (Bool × ℕ × Bool)) :=
  r.cpu?.map fun c => c.branchCall

/-- `<Fpu as Cop>::op`, the execute entry point, dispatching on the
top-level format field (bits 25–21). -/
def Fpu.op (ar32 ar64 : FArith) (fpu : Fpu) (cpu : CpuContext) (opcode : ℕ) :
    CopResult :=
  let fmt := opcode / 2 ^ 21 % 2 ^ 5
  let rt : Fin 32 := ⟨opcode / 2 ^ 16 % 2 ^ 5, by omega⟩
  let rs := opcode / 2 ^ 11 % 2 ^ 5
  match fmt with
  | 2 =>                                          -- CFC1
    match rs with
    | 31 => .ok fpu { cpu with regs := Function.update cpu.regs rt fpu.fcsr }
    | _ => .brk fpu cpu "CFC1 from unknown register"
  | 6 =>                                          -- CTC1
    match rs with
    | 31 => .ok { fpu with fcsr := cpu.regs rt } cpu
    | _ => .brk fpu cpu "CTC1 to unknown register"
  | 8 =>                                          -- BC1x
    let tgt := (cpu.pc + sx64 (opcode % 2 ^ 16) * 4) % 2 ^ 64
    let cc := opcode / 2 ^ 18 % 4
    let nd := decide ((opcode &&& 1 <<< 17) ≠ 0)
    let tf := decide ((opcode &&& 1 <<< 16) ≠ 0)
    match fpu.get_cc cc with
    | some flag => .ok fpu (cpu.branch (flag == tf) tgt nd)
    | none => .fatal
  | 16 =>
    match fpu.fop .single ar32 cpu opcode with
    | some (f, c) => .ok f c
    | none => .fatal
  | 17 =>
    match fpu.fop .double ar64 cpu opcode with
    | some (f, c) => .ok f c
    | none => .fatal
  | _ => .brk fpu cpu "unimplemented COP1 opcode"

/-- Modelled from the spec: operand of a decoded instruction (the
`Operand` enum lives in `decode.rs`, not part of the given core); spec §4.5
names register, immediate and target-address operands. -/
inductive Operand where
  | OReg : String → Operand
  | IReg : String → Operand
  | Imm8 : ℕ → Operand
  | Imm32 : ℕ → Operand
  | Target : ℕ → Operand
deriving DecidableEq

/-- Modelled from the spec: a decoded instruction is a human-readable
mnemonic plus an operand list (spec §4.5); `DecodedInsn::new1`/`new2` build
one- and two-operand forms. -/
structure DecodedInsn where
  name : String
  args : List Operand
deriving DecidableEq

/-- The FPU control-register name table (`FPU_CREG_NAMES`). -/
def FPU_CREG_NAMES : List String :=
  ["?0?", "?1?", "?2?", "?3?", "?4?", "?5?", "?6?", "?7?", "?8?", "?9?", "?10?", "?11?",
   "?12?", "?13?", "?14?", "?15?", "?16?", "?17?", "?18?", "?19?", "?20?", "?21?", "?22?",
   "?23?", "?24?", "?25?", "?26?", "?27?", "?28?", "?29?", "?30?", "FCSR"]

/-- `<Fpu as Cop>::decode`.  The general-purpose register name table
`REG_NAMES` lives in the missing `decode.rs`, so it is abstracted as the
parameter `regNames`; it only affects the CFC1/CTC1 operand names. -/
def Fpu.decode (regNames : Fin 32 → String) (opcode pc : ℕ) : DecodedInsn :=
  let fmt := opcode / 2 ^ 21 % 2 ^ 5
  let rt := regNames ⟨opcode / 2 ^ 16 % 2 ^ 5, by omega⟩
  let fs := FPU_CREG_NAMES.getD (opcode / 2 ^ 11 % 2 ^ 5) ""
  match fmt with
  | 2 => ⟨"cfc1", [.OReg rt, .IReg fs]⟩
  | 6 => ⟨"ctc1", [.IReg rt, .OReg fs]⟩
  | 8 =>
    let tgt := (pc + sx64 (opcode % 2 ^ 16) * 4) % 2 ^ 64
    let cc := opcode / 2 ^ 18 % 4
    let nd := decide ((opcode &&& 1 <<< 17) ≠ 0)
    let tf := decide ((opcode &&& 1 <<< 16) ≠ 0)
    let name := if tf then (if nd then "BC1TL" else "BC1T")
                else (if nd then "BC1FL" else "BC1F")
    if cc ≠ 0 then ⟨name, [.Imm8 cc, .Target tgt]⟩ else ⟨name, [.Target tgt]⟩
  | _ => ⟨"cop1?", [.Imm32 fmt]⟩

/-- The redundancy invariant of the condition-code storage: bit `cc` of the
compact register agrees with the mirrored FCSR bit (`cc + 23` for `cc = 0`,
`cc + 24` otherwise), for every `cc` in 0..8. -/
def ccSync (f : Fpu) : Prop :=
  ∀ cc, cc ≤ 7 → f.fccr.testBit cc = f.fcsr.testBit (if cc = 0 then cc + 23 else cc + 24)

/-- FPU states reachable from the initial state through any sequence of
execute operations (any arithmetic oracle, CPU state and opcode at each
step, normal returns only). -/
inductive Reach : Fpu → Prop where
  | init : Reach Fpu.init
  | step (f : Fpu) (ar32 ar64 : FArith) (cpu : CpuContext) (opcode : ℕ)
      (f1 : Fpu) (c1 : CpuContext) (h : Reach f)
      (hs : Fpu.op ar32 ar64 f cpu opcode = .ok f1 c1) : Reach f1

/-- FPU states reachable as in `Reach`, but excluding CTC1 writes to control
register 31 (top-level format 6 with source index 31). -/
inductive ReachNC : Fpu → Prop where
  | init : ReachNC Fpu.init
  | step (f : Fpu) (ar32 ar64 : FArith) (cpu : CpuContext) (opcode : ℕ)
      (f1 : Fpu) (c1 : CpuContext) (h : ReachNC f)
      (hnc : ¬(opcode / 2 ^ 21 % 2 ^ 5 = 6 ∧ opcode / 2 ^ 11 % 2 ^ 5 = 31))
      (hs : Fpu.op ar32 ar64 f cpu opcode = .ok f1 c1) : ReachNC f1

/-- A trivial arithmetic oracle, used for concrete executions whose opcodes
never reach the arithmetic class. -/
def arith0 : FArith :=
  ⟨fun _ _ => 0, fun _ _ => 0, fun _ _ => 0, fun _ _ => 0, fun _ => 0, fun _ => 0,
   fun _ => 0⟩

/-- A concrete FPU state: register 1 holds a pattern whose upper 32 bits are
set, register 3 holds a quiet-NaN double pattern with payload bits. -/
def fpuX : Fpu :=
  { Fpu.init with
    regs := fun i => if i = 1 then 2 ^ 32 else if i = 3 then 0xFFF8000000000005 else 0 }

/-- A concrete CPU context: general register 1 holds `2 ^ 23`. -/
def cpuY : CpuContext := ⟨fun i => if i = 1 then 2 ^ 23 else 0, 0x1000, none⟩

/-- The branch target as the spec words it: the program counter plus the
sign-extended 16-bit immediate times 4, in wrapping 64-bit arithmetic
(written with signed integer arithmetic, to be compared with the unsigned
two's-complement computation of the code). -/
def branchTargetSpec (pc imm : ℕ) : ℕ :=
  (((pc : ℤ) +
      (if imm % 2 ^ 16 < 2 ^ 15 then (imm % 2 ^ 16 : ℤ)
       else (imm % 2 ^ 16 : ℤ) - 2 ^ 16) * 4) % 2 ^ 64).toNat

/-- The target-address operand of a decoded instruction, when present as the
last operand. -/
def DecodedInsn.targetArg : DecodedInsn → Option ℕ
  | ⟨_, [.Target t]⟩ => some t
  | ⟨_, [_, .Target t]⟩ => some t
  | _ => none

/-- Round to nearest with ties to the even neighbor, stated independently of
the code: at a tie (fractional part exactly one half) pick whichever of the
two neighboring integers is even, otherwise the nearest integer. -/
def roundTiesEven (q : ℚ) : ℚ :=
  if Int.fract q = 1 / 2 then (if Even ⌊q⌋ then (⌊q⌋ : ℚ) else ((⌊q⌋ : ℚ) + 1))
  else (round q : ℚ)


/-- The rounding step of convert selector `F` (0x08..0x0F): round-half-to-
even, truncate, ceiling, floor, cycling with `F % 4` exactly as the
dispatcher's arms do. -/
def cvtRound (F : ℕ) : ℚ → ℚ :=
  if F % 4 = 0 then bankers_round else if F % 4 = 1 then ftrunc
  else if F % 4 = 2 then fceil else ffloor

/-- Target integer width of convert selector `F`: 64 (`.L`) for 0x08..0x0B,
32 (`.W`) for 0x0C..0x0F. -/
def cvtBits (F : ℕ) : ℕ := if F < 0x0C then 64 else 32

/-- The num-traits narrowing conversion used by convert selector `F` at
float width `w`. -/
def cvtToInt (w : FW) (F : ℕ) : FVal → Option ℤ :=
  if F < 0x0C then FVal.to_i64 else FVal.to_i32 w

/-- Spec wording for the compare class: `unordered = isNaN(src) or
isNaN(tgt)`, the operands being the source registers read at width `w`. -/
def cmpUnordered (w : FW) (fpu : Fpu) (o : ℕ) : Bool :=
  (w.fval (fpu.regs (Fop.rs o) % 2 ^ w.bits)).is_nan ||
  (w.fval (fpu.regs (Fop.rt o) % 2 ^ w.bits)).is_nan

/-- Spec wording: `less = !unordered and src < tgt`. -/
def cmpLess (w : FW) (fpu : Fpu) (o : ℕ) : Bool :=
  !cmpUnordered w fpu o &&
  (w.fval (fpu.regs (Fop.rs o) % 2 ^ w.bits)).flt
    (w.fval (fpu.regs (Fop.rt o) % 2 ^ w.bits))

/-- Spec wording: `equal = !unordered and src == tgt`. -/
def cmpEqual (w : FW) (fpu : Fpu) (o : ℕ) : Bool :=
  !cmpUnordered w fpu o &&
  (w.fval (fpu.regs (Fop.rs o) % 2 ^ w.bits)).feq
    (w.fval (fpu.regs (Fop.rt o) % 2 ^ w.bits))

/-- Spec wording: the quiet comparison outcome
`(less & bit2) | (equal & bit1) | (unordered & bit0)` of predicate `F`. -/
def cmpCond (w : FW) (fpu : Fpu) (o F : ℕ) : Bool :=
  (cmpLess w fpu o && F.testBit 2) || (cmpEqual w fpu o && F.testBit 1) ||
  (cmpUnordered w fpu o && F.testBit 0)

/-! Theorems.  First some helper lemmas about the bit-level condition-code
update performed by `set_cc`. -/

/-- One step of `set_cc`: clearing bit `cc` of a 64-bit word and or-ing in a
boolean at that position sets exactly bit `cc` and keeps the other 64 bits. -/
theorem setBit_testBit (a cc : ℕ) (v : Bool) (i : ℕ) (hcc : cc < 64) :
    ((a &&& ((2 ^ 64 - 1) ^^^ (1 <<< cc))) ||| (v.toNat <<< cc)).testBit i
      = if i = cc then v else (a.testBit i && decide (i < 64)) := by
  rw [Nat.one_shiftLeft, Nat.testBit_lor, Nat.testBit_land, Nat.testBit_xor,
    Nat.testBit_shiftLeft, Nat.testBit_two_pow_sub_one]
  rcases eq_or_ne i cc with rfl | hne
  · rw [Nat.testBit_two_pow_self, if_pos rfl]
    have h0 : v.toNat.testBit (i - i) = v := by cases v <;> simp
    rw [h0]
    simp [hcc]
  · rw [Nat.testBit_two_pow_of_ne (Ne.symm hne), if_neg hne]
    have h3 : (decide (cc ≤ i) && v.toNat.testBit (i - cc)) = false := by
      rcases Nat.lt_or_ge i cc with hlt | hge
      · simp [Nat.not_le.mpr hlt]
      · have : v.toNat.testBit (i - cc) = false := by
          cases v
          · simp
          · simpa using Nat.testBit_two_pow_of_ne (by omega : 0 ≠ i - cc)
        simp [this]
    rw [h3]
    simp

/-- A 64-bit masked-or update is always `< 2 ^ 64`. -/
theorem setBit_lt (a cc : ℕ) (v : Bool) (hcc : cc < 64) :
    (a &&& ((2 ^ 64 - 1) ^^^ (1 <<< cc))) ||| (v.toNat <<< cc) < 2 ^ 64 := by
  have h1 : a &&& ((2 ^ 64 - 1) ^^^ (1 <<< cc)) < 2 ^ 64 := by
    have := Nat.and_le_right (n := a) (m := (2 ^ 64 - 1) ^^^ (1 <<< cc))
    have h2 : (2 ^ 64 - 1) ^^^ (1 <<< cc) < 2 ^ 64 := by
      apply Nat.xor_lt_two_pow (by norm_num)
      rw [Nat.one_shiftLeft]
      exact Nat.pow_lt_pow_right (by norm_num) hcc
    omega
  have h2 : v.toNat <<< cc < 2 ^ 64 := by
    rw [Nat.shiftLeft_eq]
    have hv : v.toNat ≤ 1 := by cases v <;> simp
    have hm : v.toNat * 2 ^ cc ≤ 2 ^ cc := by
      nlinarith [Nat.pos_pow_of_pos cc (by norm_num : 0 < 2)]
    have : (2 : ℕ) ^ cc < 2 ^ 64 := Nat.pow_lt_pow_right (by norm_num) hcc
    omega
  exact Nat.or_lt_two_pow h1 h2

/-- The `(fccr & (1 << cc)) != 0` read in `get_cc` is exactly `testBit`. -/
theorem and_one_shift_ne (a i : ℕ) : decide (a &&& 1 <<< i ≠ 0) = a.testBit i := by
  rw [Nat.one_shiftLeft, Nat.and_two_pow]
  rcases h : a.testBit i <;> simp [h, pow_pos]

/-- C3: for every cc index 0–7 and boolean `v`, after `set_cc cc v` the
read-back `get_cc cc` returns `v`, the compact register has `v` at bit `cc`,
the FCSR has `v` at bit `cc + 23` (for `cc = 0`) or `cc + 24` (for
`cc > 0`), and every other bit of both 64-bit registers is unchanged. -/
theorem c3_set_condition_get_condition (fpu : Fpu) (cc : ℕ) (v : Bool) (hcc : cc ≤ 7) :
    ((fpu.set_cc cc v).map Fpu.fccr ≠ none) ∧
    (∀ f1, fpu.set_cc cc v = some f1 →
      f1.get_cc cc = some v ∧
      f1.fccr.testBit cc = v ∧
      f1.fcsr.testBit (if cc = 0 then cc + 23 else cc + 24) = v ∧
      (∀ i, i < 64 → i ≠ cc → f1.fccr.testBit i = fpu.fccr.testBit i) ∧
      (∀ i, i < 64 → i ≠ (if cc = 0 then cc + 23 else cc + 24) →
        f1.fcsr.testBit i = fpu.fcsr.testBit i)) := by
  have hguard : ¬ cc > 8 := by omega
  have hpos : (if cc = 0 then cc + 23 else cc + 24) = ccPos cc := by
    unfold ccPos; rcases Nat.eq_zero_or_pos cc with h | h <;> simp [h] <;> omega
  have hlt : cc < 64 := by omega
  have hlt2 : ccPos cc < 64 := by unfold ccPos; split <;> omega
  constructor
  · simp [Fpu.set_cc, hguard]
  · intro f1 h1
    simp only [Fpu.set_cc, hguard, if_false, Option.some.injEq] at h1
    subst h1
    refine ⟨?_, ?_, ?_, ?_, ?_⟩
    · simp only [Fpu.get_cc, hguard, if_false, Option.some.injEq]
      rw [and_one_shift_ne]
      have hbit := setBit_testBit fpu.fccr cc v cc hlt
      simpa using hbit
    · have hbit := setBit_testBit fpu.fccr cc v cc hlt
      simpa using hbit
    · rw [hpos]
      have hbit := setBit_testBit fpu.fcsr (ccPos cc) v (ccPos cc) hlt2
      simpa using hbit
    · intro i hi hne
      have hbit := setBit_testBit fpu.fccr cc v i hlt
      simp only [if_neg hne] at hbit
      simpa [hi] using hbit
    · intro i hi hne
      rw [hpos] at hne
      have hbit := setBit_testBit fpu.fcsr (ccPos cc) v i hlt2
      simp only [if_neg hne] at hbit
      simpa [hi] using hbit

/-- C3 witness at `cc = 5`, `v = true` on a concrete state. -/
theorem c3_witness :
    ((Fpu.init.set_cc 5 true).map Fpu.fccr ≠ none) ∧
    (∀ f1, Fpu.init.set_cc 5 true = some f1 →
      f1.get_cc 5 = some true ∧
      f1.fccr.testBit 5 = true ∧
      f1.fcsr.testBit (if 5 = 0 then 5 + 23 else 5 + 24) = true ∧
      (∀ i, i < 64 → i ≠ 5 → f1.fccr.testBit i = Fpu.init.fccr.testBit i) ∧
      (∀ i, i < 64 → i ≠ (if 5 = 0 then 5 + 23 else 5 + 24) →
        f1.fcsr.testBit i = Fpu.init.fcsr.testBit i)) :=
  c3_set_condition_get_condition Fpu.init 5 true (by decide)

/-- C4: the claim says `set_condition`/`get_condition` fail exactly for
`cc > 7`, but the Rust guard is `cc > 8`: at the failing input `cc = 8`
neither operation fails (the compact bit 8 and FCSR bit 32 are written
instead), so the code accepts one index the spec rules out. -/
theorem c4_guard_off_by_one :
    (Fpu.init.set_cc 8 true).isSome = true ∧
    (Fpu.init.get_cc 8).isSome = true ∧
    (∀ (fpu : Fpu) (cc : ℕ) (v : Bool), (fpu.set_cc cc v).isSome = true ↔ cc ≤ 8) ∧
    (∀ (fpu : Fpu) (cc : ℕ), (fpu.get_cc cc).isSome = true ↔ cc ≤ 8) := by
  refine ⟨by decide, by decide, ?_, ?_⟩
  · intro fpu cc v
    unfold Fpu.set_cc
    split <;> simp <;> omega
  · intro fpu cc
    unfold Fpu.get_cc
    split <;> simp <;> omega

/-- Bit-level description of a successful `set_cc`: every bit of both target
registers after the write. -/
theorem set_cc_testBits (fpu : Fpu) (cc : ℕ) (v : Bool) (f1 : Fpu) (hcc : cc ≤ 8)
    (hs : fpu.set_cc cc v = some f1) :
    (∀ i, f1.fccr.testBit i
        = if i = cc then v else (fpu.fccr.testBit i && decide (i < 64))) ∧
    (∀ i, f1.fcsr.testBit i
        = if i = ccPos cc then v else (fpu.fcsr.testBit i && decide (i < 64))) ∧
    f1.regs = fpu.regs := by
  have hguard : ¬ cc > 8 := by omega
  simp only [Fpu.set_cc, hguard, if_false, Option.some.injEq] at hs
  subst hs
  have hlt : cc < 64 := by omega
  have hlt2 : ccPos cc < 64 := by unfold ccPos; split <;> omega
  exact ⟨fun i => setBit_testBit fpu.fccr cc v i hlt,
    fun i => setBit_testBit fpu.fcsr (ccPos cc) v i hlt2, rfl⟩

/-- A `set_cc` write with an in-range index keeps the two condition-code
storage locations synchronized. -/
theorem set_cc_preserves_ccSync (f : Fpu) (cc : ℕ) (v : Bool) (f1 : Fpu)
    (hcc : cc ≤ 7) (h : ccSync f) (hs : f.set_cc cc v = some f1) : ccSync f1 := by
  obtain ⟨hccr, hcsr, -⟩ := set_cc_testBits f cc v f1 (by omega) hs
  intro j hj
  have hpj : (if j = 0 then j + 23 else j + 24) = ccPos j := by
    unfold ccPos; rcases Nat.eq_zero_or_pos j with h0 | h0 <;> simp [h0] <;> omega
  rw [hccr j, hcsr (if j = 0 then j + 23 else j + 24), hpj]
  rcases eq_or_ne j cc with rfl | hne
  · simp
  · have hpne : ccPos j ≠ ccPos cc := by
      unfold ccPos; split <;> split <;> omega
    have hj64 : decide (j < 64) = true := by simp; omega
    have hp64 : decide (ccPos j < 64) = true := by simp [ccPos]; split <;> omega
    rw [if_neg hne, if_neg hpne, hj64, hp64, Bool.and_true, Bool.and_true]
    have hh := h j hj
    rw [hpj] at hh
    exact hh

/-- Every normal return of the width-dispatcher keeps the condition-code
storage synchronized: the arithmetic, move and convert classes only touch
data registers, and the compare class goes through `set_cc` with a 3-bit
index. -/
theorem fop_preserves_ccSync (w : FW) (ar : FArith) (f : Fpu) (cpu : CpuContext)
    (o : ℕ) (f1 : Fpu) (c1 : CpuContext) (h : ccSync f)
    (hs : Fpu.fop w ar f cpu o = some (f1, c1)) : ccSync f1 := by
  have hcond : ∀ c : Bool, (f.set_cc (Fop.cc o) c).map (fun x => (x, cpu)) = some (f1, c1)
      → ccSync f1 := by
    intro c hmap
    rw [Option.map_eq_some'] at hmap
    obtain ⟨a, ha, hpair⟩ := hmap
    have hcc : Fop.cc o ≤ 7 := by unfold Fop.cc; omega
    have haf : a = f1 := by
      have := congrArg Prod.fst hpair
      simpa using this
    rw [haf] at ha
    exact set_cc_preserves_ccSync f (Fop.cc o) c f1 hcc h ha
  have hregs : ∀ rg : Fin 32 → ℕ,
      some (({ f with regs := rg } : Fpu), cpu) = some (f1, c1) → ccSync f1 := by
    intro rg hg
    simp only [Option.some.injEq, Prod.mk.injEq] at hg
    obtain ⟨hg1, -⟩ := hg
    subst hg1
    exact h
  simp only [Fpu.fop, approxStep, condStep] at hs
  split at hs <;>
    first
    | exact hregs _ hs
    | exact Option.noConfusion hs
    | (split at hs <;>
        first
        | exact hregs _ hs
        | exact Option.noConfusion hs
        | exact hcond _ hs)

/-- Every normal return of the execute entry point other than a CTC1 write
to control register 31 keeps the condition-code storage synchronized. -/
theorem op_preserves_ccSync (ar32 ar64 : FArith) (f : Fpu) (cpu : CpuContext)
    (o : ℕ) (f1 : Fpu) (c1 : CpuContext) (h : ccSync f)
    (hnc : ¬(o / 2 ^ 21 % 2 ^ 5 = 6 ∧ o / 2 ^ 11 % 2 ^ 5 = 31))
    (hs : Fpu.op ar32 ar64 f cpu o = .ok f1 c1) : ccSync f1 := by
  simp only [Fpu.op] at hs
  split at hs
  · -- format 2, CFC1
    split at hs
    · injection hs with h1 h2
      rw [← h1]
      exact h
    · exact CopResult.noConfusion hs
  · -- format 6, CTC1: excluded by hypothesis or recoverable
    split at hs
    · exact absurd ⟨by assumption, by assumption⟩ hnc
    · exact CopResult.noConfusion hs
  · -- format 8, branch: FPU state unchanged
    split at hs
    · injection hs with h1 h2
      rw [← h1]
      exact h
    · exact CopResult.noConfusion hs
  · -- format 16
    split at hs
    · rename_i f2 c2 heq
      injection hs with h1 h2
      rw [← h1]
      exact fop_preserves_ccSync _ _ _ _ _ f2 c2 h heq
    · exact CopResult.noConfusion hs
  · -- format 17
    split at hs
    · rename_i f2 c2 heq
      injection hs with h1 h2
      rw [← h1]
      exact fop_preserves_ccSync _ _ _ _ _ f2 c2 h heq
    · exact CopResult.noConfusion hs
  · exact CopResult.noConfusion hs

/-- C5 counterexample: the claim quantifies over all states reachable
through execute operations including CTC1 control-register writes, but a
single CTC1 of the value `2 ^ 23` into register 31 from the initial state
sets FCSR bit 23 while leaving compact bit 0 clear, so the mirror property
fails at `cc = 0`.  The opcode 12711936 is format 6 (CTC1), source index 31,
general register 1. -/
theorem c5_counterexample : ¬ (∀ f, Reach f → ccSync f) := by
  intro hall
  have hstep : Fpu.op arith0 arith0 Fpu.init cpuY 12711936 =
      .ok { Fpu.init with fcsr := 2 ^ 23 } cpuY := rfl
  have hreach : Reach { Fpu.init with fcsr := 2 ^ 23 } :=
    Reach.step Fpu.init arith0 arith0 cpuY 12711936 _ _ Reach.init hstep
  have hbit := hall _ hreach 0 (by norm_num)
  revert hbit
  decide

/-- C5 amended: for every FPU state reachable from the initial state
through any sequence of execute operations that does not include a CTC1
write to control register 31, and every cc in 0..8, bit `cc` of the compact
condition-code register equals the FCSR bit at position `cc + 23` (for
`cc = 0`) or `cc + 24` (for `cc > 0`). -/
theorem c5_ccSync_reachable (f : Fpu) (h : ReachNC f) : ccSync f := by
  induction h with
  | init =>
    intro cc hcc
    simp [Fpu.init]
  | step f ar32 ar64 cpu o f1 c1 hr hnc hs ih =>
    exact op_preserves_ccSync ar32 ar64 f cpu o f1 c1 ih hnc hs

/-- C5 witness: the synchronization property holds of the initial state,
instantiating the reachability hypothesis at the empty operation sequence. -/
theorem c5_witness : ccSync Fpu.init :=
  c5_ccSync_reachable Fpu.init ReachNC.init

/-- C9 counterexample: opcode 33556614 is MOV at single-precision width
(format 16, function 6) with source register 1 and destination register 2;
running it on a state whose register 1 holds `2 ^ 32` (upper half set, lower
half zero) writes 0 to register 2, so the stored 64-bit pattern of the
destination does not equal the source's stored pattern. -/
theorem c9_counterexample :
    (Fpu.op arith0 arith0 fpuX cpuY 33556614).regVal 2 = some 0 ∧
    fpuX.regs 1 = 2 ^ 32 ∧
    (Fpu.op arith0 arith0 fpuX cpuY 33556614).regVal 2 ≠
      some (fpuX.regs 1) := by
  refine ⟨rfl, rfl, by decide⟩

/-- C9 amended: MOV (function selector 6) at width W copies the low W bits
of the source register's stored pattern into the destination register —
bit-exactly, so NaN payloads and the sign of zero within the operating width
are preserved; the upper 32 bits are zeroed at single precision, and at
double precision a well-formed (64-bit) source pattern is preserved in
full.  All other registers and the CPU context are untouched. -/
theorem c9_mov_low_bits (w : FW) (ar32 ar64 : FArith) (fpu : Fpu)
    (cpu : CpuContext) (opcode : ℕ)
    (hfmt : opcode / 2 ^ 21 % 2 ^ 5 = 16 ∧ w = .single ∨
            opcode / 2 ^ 21 % 2 ^ 5 = 17 ∧ w = .double)
    (hfunc : opcode % 2 ^ 6 = 6) :
    (Fpu.op ar32 ar64 fpu cpu opcode).isOk = true ∧
    (Fpu.op ar32 ar64 fpu cpu opcode).regVal (Fop.rd opcode)
      = some (fpu.regs (Fop.rs opcode) % 2 ^ w.bits) ∧
    (∀ i : Fin 32, i ≠ Fop.rd opcode →
      (Fpu.op ar32 ar64 fpu cpu opcode).regVal i = some (fpu.regs i)) ∧
    (Fpu.op ar32 ar64 fpu cpu opcode).cpu? = some cpu ∧
    (w = .double → fpu.regs (Fop.rs opcode) < 2 ^ 64 →
      (Fpu.op ar32 ar64 fpu cpu opcode).regVal (Fop.rd opcode)
        = some (fpu.regs (Fop.rs opcode))) := by
  have hrun : Fpu.op ar32 ar64 fpu cpu opcode =
      .ok { fpu with regs := (Function.update fpu.regs (Fop.rd opcode)
              (fpu.regs (Fop.rs opcode) % 2 ^ w.bits)) } cpu := by
    rcases hfmt with ⟨hf, hw⟩ | ⟨hf, hw⟩ <;> subst hw <;>
      · simp only [Fpu.op, hf]
        simp only [Fpu.fop, Fop.func, hfunc]
        simp
  refine ⟨?_, ?_, ?_, ?_, ?_⟩
  · rw [hrun]; rfl
  · rw [hrun]
    simp [CopResult.regVal, CopResult.fpu?]
  · intro i hne
    rw [hrun]
    simp [CopResult.regVal, CopResult.fpu?, Function.update_noteq hne]
  · rw [hrun]; rfl
  · intro hw hlt
    rw [hrun]
    subst hw
    simp [CopResult.regVal, CopResult.fpu?, FW.bits, Nat.mod_eq_of_lt hlt]
    exact hlt

/-- C9 witness: MOV.D (opcode 35657990: format 17, function 6, source 3,
destination 4) on the concrete state `fpuX` copies the low 64 bits. -/
theorem c9_witness :
    (Fpu.op arith0 arith0 fpuX cpuY 35657990).regVal (Fop.rd 35657990)
      = some (fpuX.regs (Fop.rs 35657990) % 2 ^ FW.double.bits) :=
  (c9_mov_low_bits .double arith0 arith0 fpuX cpuY 35657990
    (Or.inr ⟨by decide, rfl⟩) (by decide)).2.1

/-- The unsigned wrapping computation `(pc + sx64(imm) * 4) % 2 ^ 64` of the
code equals the signed formula of the spec. -/
theorem sx64_target_eq (pc imm : ℕ) :
    (pc + sx64 imm * 4) % 2 ^ 64 = branchTargetSpec pc imm := by
  unfold sx64 branchTargetSpec
  split
  · omega
  · omega

/-- C2: on top-level format 8 the execute path reads the condition flag
selected by bits 18–19, compares it with the branch-if-true selector
(bit 16), and delegates the `(taken, target, likely)` triple to the CPU
context's `branch`, the target being the program counter plus the
sign-extended low 16 bits times 4 (wrapping 64-bit arithmetic); in
particular `pc = 0x1000` with immediate `0x0005` gives `0x1014` and with
immediate `0xFFFF` gives `0x0FFC`. -/
theorem c2_branch_on_condition (ar32 ar64 : FArith) (fpu : Fpu) (cpu : CpuContext)
    (opcode : ℕ) (hfmt : opcode / 2 ^ 21 % 2 ^ 5 = 8) :
    (Fpu.op ar32 ar64 fpu cpu opcode).isOk = true ∧
    (fpu.get_cc (opcode / 2 ^ 18 % 4)).isSome = true ∧
    (∀ flag, fpu.get_cc (opcode / 2 ^ 18 % 4) = some flag →
      Fpu.op ar32 ar64 fpu cpu opcode =
        .ok fpu (cpu.branch (flag == decide ((opcode &&& 1 <<< 16) ≠ 0))
          (branchTargetSpec cpu.pc (opcode % 2 ^ 16))
          (decide ((opcode &&& 1 <<< 17) ≠ 0)))) ∧
    branchTargetSpec 0x1000 0x0005 = 0x1014 ∧
    branchTargetSpec 0x1000 0xFFFF = 0x0FFC := by
  have hcc : fpu.get_cc (opcode / 2 ^ 18 % 4) =
      some (decide ((fpu.fccr &&& (1 <<< (opcode / 2 ^ 18 % 4))) ≠ 0)) := by
    unfold Fpu.get_cc
    rw [if_neg]
    omega
  have htgt : (cpu.pc + sx64 (opcode % 2 ^ 16) * 4) % 2 ^ 64 =
      branchTargetSpec cpu.pc (opcode % 2 ^ 16) :=
    sx64_target_eq cpu.pc (opcode % 2 ^ 16)
  refine ⟨?_, ?_, ?_, by decide, by decide⟩
  · simp only [Fpu.op, hfmt, hcc]
    rfl
  · rw [hcc]
    rfl
  · intro flag hflag
    rw [hcc] at hflag
    injection hflag with hflag
    simp only [Fpu.op, hfmt, hcc, htgt, hflag]

/-- C2 witness: opcode 16777221 (format 8, cc 0, branch-if-false, immediate
5) from the initial FPU state and a CPU at `pc = 0x1000`. -/
theorem c2_witness :
    Fpu.op arith0 arith0 Fpu.init cpuY 16777221 =
      .ok Fpu.init (cpuY.branch
        (false == decide (((16777221 : ℕ) &&& 1 <<< 16) ≠ 0))
        (branchTargetSpec cpuY.pc (16777221 % 2 ^ 16))
        (decide (((16777221 : ℕ) &&& 1 <<< 17) ≠ 0))) :=
  (c2_branch_on_condition arith0 arith0 Fpu.init cpuY 16777221 (by decide)).2.2.1
    false (by decide)

/-- C10: for every format-8 opcode the target address displayed by `decode`
equals the branch target the execute path delegates to the CPU context, and
both paths read the likely flag from bit 17 and the branch-if-true flag from
bit 16 identically, the mnemonic being BC1T/BC1F/BC1TL/BC1FL accordingly. -/
theorem c10_decode_execute_agree (regNames : Fin 32 → String) (ar32 ar64 : FArith)
    (fpu : Fpu) (cpu : CpuContext) (opcode pc : ℕ)
    (hfmt : opcode / 2 ^ 21 % 2 ^ 5 = 8) (hpc : cpu.pc = pc) :
    ((Fpu.decode regNames opcode pc).targetArg).isSome = true ∧
    (∀ t, (Fpu.decode regNames opcode pc).targetArg = some t →
      ∀ flag, fpu.get_cc (opcode / 2 ^ 18 % 4) = some flag →
        (Fpu.op ar32 ar64 fpu cpu opcode).branched =
          some (some (flag == decide ((opcode &&& 1 <<< 16) ≠ 0), t,
            decide ((opcode &&& 1 <<< 17) ≠ 0)))) ∧
    (Fpu.decode regNames opcode pc).name =
      (if decide ((opcode &&& 1 <<< 16) ≠ 0) then
         (if decide ((opcode &&& 1 <<< 17) ≠ 0) then "BC1TL" else "BC1T")
       else (if decide ((opcode &&& 1 <<< 17) ≠ 0) then "BC1FL" else "BC1F")) := by
  have hcc : fpu.get_cc (opcode / 2 ^ 18 % 4) =
      some (decide ((fpu.fccr &&& (1 <<< (opcode / 2 ^ 18 % 4))) ≠ 0)) := by
    unfold Fpu.get_cc
    rw [if_neg]
    omega
  have hdec : Fpu.decode regNames opcode pc =
      (if decide ((opcode / 2 ^ 18 % 4) ≠ 0) then
        (⟨(if decide ((opcode &&& 1 <<< 16) ≠ 0) then
             (if decide ((opcode &&& 1 <<< 17) ≠ 0) then "BC1TL" else "BC1T")
           else (if decide ((opcode &&& 1 <<< 17) ≠ 0) then "BC1FL" else "BC1F")),
          [.Imm8 (opcode / 2 ^ 18 % 4),
           .Target ((pc + sx64 (opcode % 2 ^ 16) * 4) % 2 ^ 64)]⟩ : DecodedInsn)
      else
        ⟨(if decide ((opcode &&& 1 <<< 16) ≠ 0) then
             (if decide ((opcode &&& 1 <<< 17) ≠ 0) then "BC1TL" else "BC1T")
           else (if decide ((opcode &&& 1 <<< 17) ≠ 0) then "BC1FL" else "BC1F")),
          [.Target ((pc + sx64 (opcode % 2 ^ 16) * 4) % 2 ^ 64)]⟩) := by
    simp only [Fpu.decode, hfmt]
    split <;> split <;> simp_all
  refine ⟨?_, ?_, ?_⟩
  · rw [hdec]
    split <;> rfl
  · intro t ht flag hflag
    have htv : t = (pc + sx64 (opcode % 2 ^ 16) * 4) % 2 ^ 64 := by
      rw [hdec] at ht
      split at ht <;>
        · simp only [DecodedInsn.targetArg, Option.some.injEq] at ht
          first
          | exact ht.symm
          | exact ht
    rw [hcc] at hflag
    injection hflag with hflag
    have hop : Fpu.op ar32 ar64 fpu cpu opcode =
        .ok fpu (cpu.branch (flag == decide ((opcode &&& 1 <<< 16) ≠ 0))
          ((cpu.pc + sx64 (opcode % 2 ^ 16) * 4) % 2 ^ 64)
          (decide ((opcode &&& 1 <<< 17) ≠ 0))) := by
      simp only [Fpu.op, hfmt, hcc, hflag]
    rw [hop]
    simp [CopResult.branched, CopResult.cpu?, CpuContext.branch, htv, hpc]
  · rw [hdec]
    split <;> rfl

/-- C10 witness: the same concrete branch opcode as the C2 witness, with
condition-code index 0 so the decoded form has a single target operand. -/
theorem c10_witness :
    (Fpu.decode (fun _ => "r") 16777221 0x1000).name =
      (if decide (((16777221 : ℕ) &&& 1 <<< 16) ≠ 0) then
         (if decide (((16777221 : ℕ) &&& 1 <<< 17) ≠ 0) then "BC1TL" else "BC1T")
       else (if decide (((16777221 : ℕ) &&& 1 <<< 17) ≠ 0) then "BC1FL" else "BC1F")) :=
  (c10_decode_execute_agree (fun _ => "r") arith0 arith0 Fpu.init cpuY 16777221 0x1000
    (by decide) rfl).2.2

/-- C8: a CTC1 (format 6) to control index 31 stores the source general
register's 64-bit value X into the FCSR, and a following CFC1 (format 2)
from index 31 copies exactly X back into its destination general register;
for any control index other than 31 both CFC1 and CTC1 leave the FPU and
CPU state unchanged and return the tracer's recoverable result, not a fatal
condition. -/
theorem c8_control_register_transfer (ar32 ar64 : FArith) (fpu : Fpu)
    (cpu : CpuContext) (X octc ofc : ℕ)
    (h1 : octc / 2 ^ 21 % 2 ^ 5 = 6) (h2 : octc / 2 ^ 11 % 2 ^ 5 = 31)
    (h3 : ofc / 2 ^ 21 % 2 ^ 5 = 2) (h4 : ofc / 2 ^ 11 % 2 ^ 5 = 31)
    (hX : cpu.regs (Fop.rt octc) = X) :
    Fpu.op ar32 ar64 fpu cpu octc = .ok { fpu with fcsr := X } cpu ∧
    (Fpu.op ar32 ar64 { fpu with fcsr := X } cpu ofc).isOk = true ∧
    (Fpu.op ar32 ar64 { fpu with fcsr := X } cpu ofc).cpuReg (Fop.rt ofc)
      = some X ∧
    (Fpu.op ar32 ar64 { fpu with fcsr := X } cpu ofc).fpu?
      = some { fpu with fcsr := X } ∧
    (∀ obad : ℕ, (obad / 2 ^ 21 % 2 ^ 5 = 2 ∨ obad / 2 ^ 21 % 2 ^ 5 = 6) →
      obad / 2 ^ 11 % 2 ^ 5 ≠ 31 →
      (Fpu.op ar32 ar64 fpu cpu obad).isBrk = true ∧
      (Fpu.op ar32 ar64 fpu cpu obad).fpu? = some fpu ∧
      (Fpu.op ar32 ar64 fpu cpu obad).cpu? = some cpu) := by
  have hcfc : Fpu.op ar32 ar64 { fpu with fcsr := X } cpu ofc =
      .ok { fpu with fcsr := X }
        { cpu with regs := Function.update cpu.regs (Fop.rt ofc) X } := by
    simp only [Fpu.op, h3, h4]
    rfl
  refine ⟨?_, ?_, ?_, ?_, ?_⟩
  · simp only [Fpu.op, h1, h2]
    rw [show cpu.regs ⟨octc / 2 ^ 16 % 2 ^ 5, by omega⟩ = X from hX]
  · rw [hcfc]
    rfl
  · rw [hcfc]
    simp [CopResult.cpuReg, CopResult.cpu?]
  · rw [hcfc]
    rfl
  · intro obad hfmt hrs
    have hbrk : ∀ m : String, ((CopResult.brk fpu cpu m).isBrk = true ∧
        (CopResult.brk fpu cpu m).fpu? = some fpu ∧
        (CopResult.brk fpu cpu m).cpu? = some cpu) := fun m => ⟨rfl, rfl, rfl⟩
    rcases hfmt with h | h <;>
      · simp only [Fpu.op, h]
        first
        | exact hbrk _
        | (split
           · exact absurd (by assumption) hrs
           · exact hbrk _)

/-- C8 witness: CTC1 opcode 12711936 (format 6, index 31, source register 1
holding `2 ^ 23` in `cpuY`) followed by CFC1 opcode 4388864 (format 2,
index 31, destination register 2). -/
theorem c8_witness :
    (Fpu.op arith0 arith0 { Fpu.init with fcsr := 2 ^ 23 } cpuY 4388864).cpuReg
      (Fop.rt 4388864) = some (2 ^ 23) :=
  (c8_control_register_transfer arith0 arith0 Fpu.init cpuY (2 ^ 23) 12711936 4388864
    (by decide) (by decide) (by decide) (by decide) (by decide)).2.2.1

/-- Away from a tie, Rust rounding (ties away from zero) agrees with
Mathlib's `round` (ties up): the tie-breaking convention never fires. -/
theorem fround_eq_round (q : ℚ) (h : Int.fract q ≠ 1 / 2) :
    fround q = (round q : ℚ) := by
  unfold fround
  split
  · rw [round_eq]
  · rw [round_eq]
    have hz : (⌈q - 1 / 2⌉ : ℤ) = ⌊q - 1 / 2⌋ + 1 := by
      rcases (by
        have h1 := Int.ceil_le_floor_add_one (q - 1 / 2)
        have h2 := Int.floor_le_ceil (q - 1 / 2)
        omega : ⌈q - 1 / 2⌉ = ⌊q - 1 / 2⌋ + 1 ∨ ⌈q - 1 / 2⌉ = ⌊q - 1 / 2⌋) with
        h1 | h1
      · exact h1
      · exfalso
        have hfl := Int.floor_le (q - 1 / 2)
        have hcl := Int.le_ceil (q - 1 / 2)
        rw [h1] at hcl
        have hqz : q = (⌊q - 1 / 2⌋ : ℚ) + 1 / 2 := by linarith
        apply h
        rw [hqz, add_comm, Int.fract_add_int]
        rw [Int.fract_eq_self.2 (by norm_num)]
    have hz2 : ⌊q - 1 / 2⌋ + 1 = ⌊q + 1 / 2⌋ := by
      have : q + 1 / 2 = (q - 1 / 2) + (1 : ℤ) := by push_cast; ring
      rw [this, Int.floor_add_int]
    rw [hz, hz2]

/-- Away from a tie, the distance to the rounded value is strictly below one
half. -/
theorem abs_sub_round_ne (q : ℚ) (h : Int.fract q ≠ 1 / 2) :
    |q - (round q : ℚ)| ≠ 1 / 2 := by
  rw [abs_sub_round_eq_min]
  intro hmin
  rcases le_total (Int.fract q) (1 - Int.fract q) with hle | hle
  · rw [min_eq_left hle] at hmin
    exact h hmin
  · rw [min_eq_right hle] at hmin
    apply h
    linarith


/-- Rust rounding of an integer plus one quarter drops the quarter. -/
theorem fround_int_add_quarter (m : ℤ) : fround ((m : ℚ) + 1 / 4) = m := by
  unfold fround
  split
  · rw [show (m : ℚ) + 1 / 4 + 1 / 2 = 3 / 4 + m by push_cast; ring,
      Int.floor_add_int, show ⌊(3 / 4 : ℚ)⌋ = 0 by norm_num]
    norm_num
  · rw [show (m : ℚ) + 1 / 4 - 1 / 2 = -(1 / 4) + m by push_cast; ring,
      Int.ceil_add_int, show ⌈(-(1 / 4) : ℚ)⌉ = 0 by norm_num]
    norm_num

/-- Rust rounding of an integer plus three quarters carries up. -/
theorem fround_int_add_three_quarter (m : ℤ) : fround ((m : ℚ) + 3 / 4) = m + 1 := by
  unfold fround
  split
  · rw [show (m : ℚ) + 3 / 4 + 1 / 2 = 5 / 4 + m by push_cast; ring,
      Int.floor_add_int, show ⌊(5 / 4 : ℚ)⌋ = 1 by norm_num]
    push_cast
    ring
  · rw [show (m : ℚ) + 3 / 4 - 1 / 2 = 1 / 4 + m by push_cast; ring,
      Int.ceil_add_int, show ⌈(1 / 4 : ℚ)⌉ = 1 by rw [Int.ceil_eq_iff]; norm_num]
    push_cast
    ring

/-- C6: `bankers_round` (the shared `round_half_to_even` of both float
widths) computes, for every input, the nearest integer with ties resolved
to the even neighbor, and in particular `bankers_round 2.5 = 2`,
`bankers_round 3.5 = 4`, `bankers_round (-2.5) = -2`. -/
theorem c6_round_half_to_even :
    (∀ q : ℚ, bankers_round q = roundTiesEven q) ∧
    bankers_round (5 / 2) = 2 ∧ bankers_round (7 / 2) = 4 ∧
    bankers_round (-(5 / 2)) = -2 := by
  have hmain : ∀ q : ℚ, bankers_round q = roundTiesEven q := ?_
  refine ⟨hmain, ?_, ?_, ?_⟩
  · rw [hmain]
    norm_num [roundTiesEven, Int.fract, Int.even_iff]
  · rw [hmain]
    norm_num [roundTiesEven, Int.fract, Int.even_iff]
  · rw [hmain]
    norm_num [roundTiesEven, Int.fract, Int.even_iff]
  intro q
  by_cases hf : Int.fract q = 1 / 2
  · have hq := Int.floor_add_fract q
    rw [hf] at hq
    have htie : |q - fround q| = 1 / 2 := by
      unfold fround
      split
      · rw [show q + 1 / 2 = ((⌊q⌋ + 1 : ℤ) : ℚ) by push_cast; linarith,
          Int.floor_intCast, abs_sub_comm,
          show (((⌊q⌋ + 1 : ℤ) : ℚ)) - q = 1 / 2 by push_cast; linarith]
        norm_num
      · rw [show q - 1 / 2 = ((⌊q⌋ : ℤ) : ℚ) by push_cast; linarith,
          Int.ceil_intCast,
          show q - ((⌊q⌋ : ℤ) : ℚ) = 1 / 2 by push_cast; linarith]
        norm_num
    simp only [bankers_round, roundTiesEven]
    rw [if_pos htie, if_pos hf]
    rcases Int.even_or_odd ⌊q⌋ with ⟨m, hm⟩ | ⟨m, hm⟩
    · have hhalf : q * (1 / 2) = (m : ℚ) + 1 / 4 := by
        rw [← hq, hm]; push_cast; ring
      rw [hhalf, fround_int_add_quarter, if_pos ⟨m, hm⟩, hm]
      push_cast
      ring
    · have hhalf : q * (1 / 2) = (m : ℚ) + 3 / 4 := by
        rw [← hq, hm]; push_cast; ring
      have hodd : ¬ Even ⌊q⌋ := by
        rw [Int.even_iff]
        omega
      rw [hhalf, fround_int_add_three_quarter, if_neg hodd, hm]
      push_cast
      ring
  · have h1 : fround q = (round q : ℚ) := fround_eq_round q hf
    have h2 := abs_sub_round_ne q hf
    simp only [bankers_round, roundTiesEven]
    rw [h1, if_neg h2, if_neg hf]


/-- The bit test `(a & 8) != 0` written with `testBit`. -/
theorem decide_and8 (a : ℕ) : decide ((a &&& 8) ≠ 0) = a.testBit 3 := by
  simpa using and_one_shift_ne a 3

/-- The bit test `(a & 4) != 0` written with `testBit`. -/
theorem decide_and4 (a : ℕ) : decide ((a &&& 4) ≠ 0) = a.testBit 2 := by
  simpa using and_one_shift_ne a 2

/-- The bit test `(a & 2) != 0` written with `testBit`. -/
theorem decide_and2 (a : ℕ) : decide ((a &&& 2) ≠ 0) = a.testBit 1 := by
  simpa using and_one_shift_ne a 1

/-- The bit test `(a & 1) != 0` written with `testBit`. -/
theorem decide_and1 (a : ℕ) : decide ((a &&& 1) ≠ 0) = a.testBit 0 := by
  simpa using and_one_shift_ne a 0

/-- The guarded read `if !nan { x } else { false }` is `!nan && x`. -/
theorem if_not_bool (b x : Bool) : (if (!b) = true then x else false) = (!b && x) := by
  cases b <;> simp

/-- Decompose a refuted boolean conjunction. -/
theorem and_eq_false_of_not (a b : Bool) (h : ¬(a = true ∧ b = true)) :
    (a && b) = false := by
  cases a <;> cases b <;> simp_all

/-- Semantics of one `cond!` expansion, for any predicate selector `F`:
signaling-NaN condition when unordered and bit 3 is set, otherwise a
`set_cc` write of the quiet predicate outcome to the opcode-selected
condition code. -/
theorem condStep_spec (w : FW) (fpu : Fpu) (cpu : CpuContext) (o F : ℕ) :
    (cmpUnordered w fpu o = true ∧ F.testBit 3 = true →
      condStep w fpu cpu o F = none) ∧
    (¬(cmpUnordered w fpu o = true ∧ F.testBit 3 = true) →
      condStep w fpu cpu o F =
        (fpu.set_cc (Fop.cc o) (cmpCond w fpu o F)).map (fun f => (f, cpu))) := by
  constructor
  · rintro ⟨h1, h2⟩
    simp only [cmpUnordered] at h1
    simp only [condStep, decide_and8]
    rw [h1, h2]
    simp
  · intro h
    simp only [cmpUnordered] at h
    simp only [condStep, decide_and8, decide_and4, decide_and2, decide_and1, if_not_bool]
    rw [and_eq_false_of_not _ _ h]
    simp only [Bool.false_eq_true, if_false]
    simp only [cmpCond, cmpLess, cmpEqual, cmpUnordered]

/-- For every comparison selector (function field 0x30..0x3F) the dispatcher
runs the `cond!` expansion with that literal selector, which equals the
function field itself. -/
theorem fop_compare_dispatch (w : FW) (ar : FArith) (fpu : Fpu) (cpu : CpuContext)
    (o : ℕ) (h : 0x30 ≤ o % 2 ^ 6) :
    Fpu.fop w ar fpu cpu o = condStep w fpu cpu o (o % 2 ^ 6) := by
  have h64 : o % 2 ^ 6 < 64 := Nat.mod_lt _ (by norm_num)
  rcases (by omega : o % 2 ^ 6 = 0x30 ∨ o % 2 ^ 6 = 0x31 ∨ o % 2 ^ 6 = 0x32 ∨
      o % 2 ^ 6 = 0x33 ∨ o % 2 ^ 6 = 0x34 ∨ o % 2 ^ 6 = 0x35 ∨ o % 2 ^ 6 = 0x36 ∨
      o % 2 ^ 6 = 0x37 ∨ o % 2 ^ 6 = 0x38 ∨ o % 2 ^ 6 = 0x39 ∨ o % 2 ^ 6 = 0x3A ∨
      o % 2 ^ 6 = 0x3B ∨ o % 2 ^ 6 = 0x3C ∨ o % 2 ^ 6 = 0x3D ∨ o % 2 ^ 6 = 0x3E ∨
      o % 2 ^ 6 = 0x3F) with
    hk | hk | hk | hk | hk | hk | hk | hk | hk | hk | hk | hk | hk | hk | hk | hk <;>
    · rw [hk]
      simp only [Fpu.fop, Fop.func, hk]

/-- C1: for every pair of operand registers at either width and every
comparison selector 0x30..0x3F: with `unordered`, `less`, `equal` as the
spec defines them, if `unordered` holds and bit 3 of the selector is set the
operation is FATAL; otherwise `(less & bit2) | (equal & bit1) | (unordered &
bit0)` is written via `set_condition` to the condition code selected by the
opcode's 3-bit cc field (bits 8-10). -/
theorem c1_compare_class (w : FW) (ar32 ar64 : FArith) (fpu : Fpu)
    (cpu : CpuContext) (opcode : ℕ)
    (hfmt : opcode / 2 ^ 21 % 2 ^ 5 = 16 ∧ w = .single ∨
            opcode / 2 ^ 21 % 2 ^ 5 = 17 ∧ w = .double)
    (hfunc : 0x30 ≤ opcode % 2 ^ 6) :
    (cmpUnordered w fpu opcode = true ∧ (opcode % 2 ^ 6).testBit 3 = true →
      Fpu.op ar32 ar64 fpu cpu opcode = .fatal) ∧
    (¬(cmpUnordered w fpu opcode = true ∧ (opcode % 2 ^ 6).testBit 3 = true) →
      (fpu.set_cc (Fop.cc opcode) (cmpCond w fpu opcode (opcode % 2 ^ 6))).isSome
        = true ∧
      ∀ f1, fpu.set_cc (Fop.cc opcode) (cmpCond w fpu opcode (opcode % 2 ^ 6))
          = some f1 →
        Fpu.op ar32 ar64 fpu cpu opcode = .ok f1 cpu) := by
  obtain ⟨hA, hB⟩ := condStep_spec w fpu cpu opcode (opcode % 2 ^ 6)
  have hsome : (fpu.set_cc (Fop.cc opcode) (cmpCond w fpu opcode (opcode % 2 ^ 6))).isSome
      = true := by
    unfold Fpu.set_cc
    rw [if_neg (by unfold Fop.cc; omega)]
    rfl
  rcases hfmt with ⟨hf, hw⟩ | ⟨hf, hw⟩ <;> subst hw
  · have hd := fop_compare_dispatch .single ar32 fpu cpu opcode hfunc
    constructor
    · intro hss
      simp only [Fpu.op, hf, hd, hA hss]
    · intro h
      refine ⟨hsome, ?_⟩
      intro f1 hf1
      simp only [Fpu.op, hf, hd, hB h, hf1, Option.map_some']
  · have hd := fop_compare_dispatch .double ar64 fpu cpu opcode hfunc
    constructor
    · intro hss
      simp only [Fpu.op, hf, hd, hA hss]
    · intro h
      refine ⟨hsome, ?_⟩
      intro f1 hf1
      simp only [Fpu.op, hf, hd, hB h, hf1, Option.map_some']

/-- C1 witness: opcode 35658033 is C.UN.D (format 17, selector 0x31, source
register 3 — a NaN pattern in `fpuX` — target register 0, cc field 1); the
unordered bit matches quietly and condition code 1 is set, giving
`fccr = 2` and the mirrored FCSR bit 25. -/
theorem c1_witness :
    Fpu.op arith0 arith0 fpuX cpuY 35658033 =
      .ok { fpuX with fccr := 2, fcsr := 2 ^ 25 } cpuY :=
  ((c1_compare_class .double arith0 arith0 fpuX cpuY 35658033
      (Or.inr (And.intro (by decide) rfl)) (by decide)).2 (by decide)).2
    { fpuX with fccr := 2, fcsr := 2 ^ 25 } (by rfl)



/-- The float-to-integer cast of an integer value is that integer. -/
theorem qint_intCast (n : ℤ) : qint ((n : ℚ)) = n := by
  unfold qint
  split
  · exact Int.floor_intCast n
  · exact Int.ceil_intCast n

/-- Every rounding policy of the convert class yields an integer value. -/
theorem cvtRound_isInt (F : ℕ) (q : ℚ) : ∃ n : ℤ, cvtRound F q = (n : ℚ) := by
  have hfr : ∀ x : ℚ, ∃ m : ℤ, fround x = (m : ℚ) := by
    intro x
    unfold fround
    split
    · exact ⟨_, rfl⟩
    · exact ⟨_, rfl⟩
  unfold cvtRound
  split
  · simp only [bankers_round]
    split
    · obtain ⟨m, hm⟩ := hfr (q * (1 / 2))
      exact ⟨2 * m, by rw [hm]; push_cast; ring⟩
    · exact hfr q
  split
  · unfold ftrunc
    split
    · exact ⟨_, rfl⟩
    · exact ⟨_, rfl⟩
  split
  · exact ⟨_, rfl⟩
  · exact ⟨_, rfl⟩

/-- On an integer value, the num-traits float range checks of the convert
class coincide with membership in the two's-complement range of the target
width, for both float widths (the `f64`-to-`i32` check uses the exclusive
`MIN - 1` bound, which agrees on integers). -/
theorem cvtToInt_intCast (w : FW) (F : ℕ) (n : ℤ) :
    cvtToInt w F (.fin (n : ℚ)) =
      (if -(2 ^ (cvtBits F - 1)) ≤ n ∧ n < 2 ^ (cvtBits F - 1) then some n
       else none) := by
  unfold cvtToInt cvtBits
  by_cases hF : F < 0x0C
  · rw [if_pos hF, if_pos hF]
    simp only [FVal.to_i64, qint_intCast]
    by_cases h : -(2 ^ (64 - 1) : ℤ) ≤ n ∧ n < 2 ^ (64 - 1)
    · rw [if_pos h, if_pos]
      norm_num at h
      constructor
      · exact_mod_cast h.1
      · exact_mod_cast h.2
    · rw [if_neg h, if_neg]
      intro hq
      apply h
      norm_num
      constructor
      · exact_mod_cast hq.1
      · exact_mod_cast hq.2
  · rw [if_neg hF, if_neg hF]
    cases w
    · simp only [FVal.to_i32, qint_intCast]
      by_cases h : -(2 ^ (32 - 1) : ℤ) ≤ n ∧ n < 2 ^ (32 - 1)
      · rw [if_pos h, if_pos]
        norm_num at h
        constructor
        · exact_mod_cast h.1
        · exact_mod_cast h.2
      · rw [if_neg h, if_neg]
        intro hq
        apply h
        norm_num
        constructor
        · exact_mod_cast hq.1
        · exact_mod_cast hq.2
    · simp only [FVal.to_i32, qint_intCast]
      by_cases h : -(2 ^ (32 - 1) : ℤ) ≤ n ∧ n < 2 ^ (32 - 1)
      · rw [if_pos h, if_pos]
        norm_num at h
        constructor
        · have h3 : (-2147483649 : ℤ) < n := by omega
          exact_mod_cast h3
        · exact_mod_cast h.2
      · rw [if_neg h, if_neg]
        intro hq
        apply h
        norm_num
        have h3 : (-2147483649 : ℤ) < n := by exact_mod_cast hq.1
        have h4 : (n : ℤ) < 2147483648 := by exact_mod_cast hq.2
        omega

/-- NaN narrows to `None` under every convert selector. -/
theorem cvtToInt_nan (w : FW) (F : ℕ) : cvtToInt w F .nan = none := by
  unfold cvtToInt
  split
  · rfl
  · cases w <;> rfl

/-- Infinities narrow to `None` under every convert selector. -/
theorem cvtToInt_inf (w : FW) (F : ℕ) (s : Bool) : cvtToInt w F (.inf s) = none := by
  unfold cvtToInt
  split
  · rfl
  · cases w <;> rfl

/-- For every convert selector (function field 0x08..0x0F) the dispatcher
runs the `approx!` expansion with that selector's rounding policy and
narrowing conversion. -/
theorem fop_convert_dispatch (w : FW) (ar : FArith) (fpu : Fpu) (cpu : CpuContext)
    (o : ℕ) (h : 8 ≤ o % 2 ^ 6 ∧ o % 2 ^ 6 ≤ 0xF) :
    Fpu.fop w ar fpu cpu o =
      approxStep w fpu cpu o (cvtRound (o % 2 ^ 6)) (cvtToInt w (o % 2 ^ 6)) := by
  obtain ⟨h1, h2⟩ := h
  rcases (by omega : o % 2 ^ 6 = 8 ∨ o % 2 ^ 6 = 9 ∨ o % 2 ^ 6 = 0xA ∨
      o % 2 ^ 6 = 0xB ∨ o % 2 ^ 6 = 0xC ∨ o % 2 ^ 6 = 0xD ∨ o % 2 ^ 6 = 0xE ∨
      o % 2 ^ 6 = 0xF) with
    hk | hk | hk | hk | hk | hk | hk | hk <;>
    · rw [hk]
      simp only [Fpu.fop, Fop.func, hk, cvtRound, cvtToInt]
      norm_num

/-- C7: each convert-to-integer operation (selectors 0x08-0x0F) reads the
source register at width W, applies its rounding step (always producing an
integer), and, when that integer lies in the two's-complement range of the
target width, writes its 64-bit two's-complement pattern to the destination
register; when the rounded value lies outside the representable range — in
particular for NaN or infinite sources — the operation is FATAL.  The
rounding policies satisfy round(3.5) = 4, truncate(3.9) = 3,
ceiling(-1.2) = -1, floor(-1.2) = -2. -/
theorem c7_convert_to_integer (w : FW) (ar32 ar64 : FArith) (fpu : Fpu)
    (cpu : CpuContext) (opcode : ℕ)
    (hfmt : opcode / 2 ^ 21 % 2 ^ 5 = 16 ∧ w = .single ∨
            opcode / 2 ^ 21 % 2 ^ 5 = 17 ∧ w = .double)
    (hfunc : 8 ≤ opcode % 2 ^ 6 ∧ opcode % 2 ^ 6 ≤ 0xF) :
    (∀ q : ℚ, ∃ n : ℤ, cvtRound (opcode % 2 ^ 6) q = (n : ℚ)) ∧
    (∀ (q : ℚ) (n : ℤ), w.fval (fpu.regs (Fop.rs opcode) % 2 ^ w.bits) = .fin q →
      cvtRound (opcode % 2 ^ 6) q = (n : ℚ) →
      (-(2 ^ (cvtBits (opcode % 2 ^ 6) - 1)) ≤ n ∧
          n < 2 ^ (cvtBits (opcode % 2 ^ 6) - 1) →
        Fpu.op ar32 ar64 fpu cpu opcode =
          .ok { fpu with regs := (Function.update fpu.regs (Fop.rd opcode)
                  ((n % 2 ^ 64).toNat)) } cpu) ∧
      (¬(-(2 ^ (cvtBits (opcode % 2 ^ 6) - 1)) ≤ n ∧
          n < 2 ^ (cvtBits (opcode % 2 ^ 6) - 1)) →
        Fpu.op ar32 ar64 fpu cpu opcode = .fatal)) ∧
    (w.fval (fpu.regs (Fop.rs opcode) % 2 ^ w.bits) = .nan →
      Fpu.op ar32 ar64 fpu cpu opcode = .fatal) ∧
    (∀ s, w.fval (fpu.regs (Fop.rs opcode) % 2 ^ w.bits) = .inf s →
      Fpu.op ar32 ar64 fpu cpu opcode = .fatal) ∧
    (bankers_round (7 / 2) = 4 ∧ ftrunc (39 / 10) = 3 ∧
     fceil (-(6 / 5)) = -1 ∧ ffloor (-(6 / 5)) = -2) := by
  have hopsS : ∀ v : ℤ,
      cvtToInt w (opcode % 2 ^ 6)
          ((w.fval (fpu.regs (Fop.rs opcode) % 2 ^ w.bits)).rnd
            (cvtRound (opcode % 2 ^ 6))) = some v →
      Fpu.op ar32 ar64 fpu cpu opcode =
        .ok { fpu with regs := (Function.update fpu.regs (Fop.rd opcode)
                ((v % 2 ^ 64).toNat)) } cpu := by
    intro v hv
    rcases hfmt with ⟨hf, hw⟩ | ⟨hf, hw⟩ <;> subst hw <;>
      · simp only [Fpu.op, hf, fop_convert_dispatch _ _ fpu cpu opcode hfunc,
          approxStep, hv]
  have hopsN :
      cvtToInt w (opcode % 2 ^ 6)
          ((w.fval (fpu.regs (Fop.rs opcode) % 2 ^ w.bits)).rnd
            (cvtRound (opcode % 2 ^ 6))) = none →
      Fpu.op ar32 ar64 fpu cpu opcode = .fatal := by
    intro hv
    rcases hfmt with ⟨hf, hw⟩ | ⟨hf, hw⟩ <;> subst hw <;>
      · simp only [Fpu.op, hf, fop_convert_dispatch _ _ fpu cpu opcode hfunc,
          approxStep, hv]
  refine ⟨cvtRound_isInt _, ?_, ?_, ?_,
    by norm_num [bankers_round, fround], by norm_num [ftrunc],
    by
      have hc : ⌈(-(6 / 5) : ℚ)⌉ = -1 := by
        rw [Int.ceil_eq_iff]
        constructor <;> norm_num
      norm_num [fceil, hc],
    by
      have hff : ⌊(-(6 / 5) : ℚ)⌋ = -2 := by
        rw [Int.floor_eq_iff]
        constructor <;> norm_num
      norm_num [ffloor, hff]⟩
  · intro q n hq hr
    constructor
    · intro hrange
      apply hopsS n
      rw [hq]
      simp only [FVal.rnd, hr, cvtToInt_intCast, if_pos hrange]
    · intro hrange
      apply hopsN
      rw [hq]
      simp only [FVal.rnd, hr, cvtToInt_intCast, if_neg hrange]
  · intro hnan
    apply hopsN
    rw [hnan]
    simp only [FVal.rnd, cvtToInt_nan]
  · intro s hinf
    apply hopsN
    rw [hinf]
    simp only [FVal.rnd, cvtToInt_inf]

/-- C7 witness: ROUND.L.D (opcode 35657992: format 17, selector 8, source
register 3) on `fpuX`, whose register 3 holds a NaN pattern: the conversion
is a FATAL condition. -/
theorem c7_witness : Fpu.op arith0 arith0 fpuX cpuY 35657992 = .fatal :=
  (c7_convert_to_integer .double arith0 arith0 fpuX cpuY 35657992
      (Or.inr (And.intro (by decide) rfl)) (by decide)).2.2.1 (by decide)


end R64
